import Mathlib

/-!
Verification of the DocumentEvaluator core: the token-budget segmenter
(`DocumentParser.chunk_text`), the retrying chunk evaluator
(`LLMEvaluator.evaluate_chunk` / `evaluate_chunks`), the weighted aggregator
(`DocumentEvaluation.weighted_average`), the document driver
(`evaluate_document`) and the flat CSV row builder
(`EvaluationResult.to_flat_dict`).

Python strings are embedded as `List Char` (named `Str`); Python string
operations (`split` with a two-character separator, `strip`, `join`) are
defined below with Python semantics.  Python floats are embedded as `ℚ`
(every arithmetic step the claims exercise is exact).  The tiktoken encoder
is an external collaborator and is passed in as an abstract token-counting
function `tc : Str → Nat`; concrete instances use `List.length`.
-/

abbrev Str := List Char

/-- `"\n\n"`, the paragraph separator. -/
def nl2 : Str := ['\n', '\n']

/-- `". "`, the sentence separator. -/
def dotSp : Str := ['.', ' ']

/-- Prepend a character to the first piece of a split result. -/
def consHead (c : Char) : List Str → List Str
  | [] => [[c]]
  | p :: ps => (c :: p) :: ps

/-- Python `s.split(xy)` for a two-character separator `[x, y]`:
greedy leftmost, non-overlapping, keeps empty pieces. -/
def pySplit2 (x y : Char) : Str → List Str
  | [] => [[]]
  | [c] => [[c]]
  | a :: b :: t =>
    if a = x ∧ b = y then [] :: pySplit2 x y t
    else consHead a (pySplit2 x y (b :: t))

/-- Python whitespace characters recognised by `str.strip()`. -/
def isPySpace (c : Char) : Bool :=
  c = ' ' || c = '\t' || c = '\n' || c = '\r' || c = '\x0b' || c = '\x0c'

/-- Python `s.strip()`. -/
def pyStrip (s : Str) : Str :=
  ((s.dropWhile isPySpace).reverse.dropWhile isPySpace).reverse

/-- Python `sep.join(pieces)`. -/
def pyJoin (sep : Str) (pieces : List Str) : Str :=
  List.intercalate sep pieces

/-- `document_parser.DocumentChunk`. -/
structure DocumentChunk where
  text : Str
  token_count : Nat
  chunk_index : Nat
  total_chunks : Nat
deriving DecidableEq, Repr

/-- `evaluator.DocumentEvaluation`: the seven score dimensions. -/
structure DocumentEvaluation where
  relevance : ℚ
  factual_accuracy : ℚ
  clarity : ℚ
  hallucination : ℚ
  style_match : ℚ
  rag_usability : ℚ
  citation_quality : ℚ
deriving DecidableEq, Repr

/-- Python `dict.get k default` over an association list (a parsed JSON
object with numeric values). -/
def dictGet (data : List (Str × ℚ)) (k : Str) (default : ℚ) : ℚ :=
  match data.lookup k with
  | some v => v
  | none => default

/-- `DocumentEvaluation.from_dict`: every absent key defaults to `0.0`. -/
def DocumentEvaluation.from_dict (data : List (Str × ℚ)) : DocumentEvaluation where
  relevance := dictGet data "relevance".data 0
  factual_accuracy := dictGet data "factual_accuracy".data 0
  clarity := dictGet data "clarity".data 0
  hallucination := dictGet data "hallucination".data 0
  style_match := dictGet data "style_match".data 0
  rag_usability := dictGet data "rag_usability".data 0
  citation_quality := dictGet data "citation_quality".data 0

/-- The all-zero evaluation `cls(0, 0, 0, 0, 0, 0, 0)`. -/
def zeroEvaluation : DocumentEvaluation := ⟨0, 0, 0, 0, 0, 0, 0⟩

/-- Total weight of a `(evaluation, weight)` list. -/
def totalWeight (evaluations : List (DocumentEvaluation × Int)) : Int :=
  (evaluations.map (fun ew => ew.2)).sum

/-- The running sums accumulated by `weighted_average`'s `weighted_sums`
dictionary. -/
structure WeightedSums where
  relevance : ℚ
  factual_accuracy : ℚ
  clarity : ℚ
  hallucination : ℚ
  style_match : ℚ
  rag_usability : ℚ
  citation_quality : ℚ
deriving DecidableEq, Repr

/-- One step of the accumulation loop in `weighted_average`. -/
def addWeighted (acc : WeightedSums) (ew : DocumentEvaluation × Int) : WeightedSums where
  relevance := acc.relevance + ew.1.relevance * ew.2
  factual_accuracy := acc.factual_accuracy + ew.1.factual_accuracy * ew.2
  clarity := acc.clarity + ew.1.clarity * ew.2
  hallucination := acc.hallucination + ew.1.hallucination * ew.2
  style_match := acc.style_match + ew.1.style_match * ew.2
  rag_usability := acc.rag_usability + ew.1.rag_usability * ew.2
  citation_quality := acc.citation_quality + ew.1.citation_quality * ew.2

/-- `DocumentEvaluation.weighted_average`.  Mirrors the source: an empty
input or a zero total weight returns the all-zero evaluation (there is no
error path); otherwise each dimension is the accumulated weighted sum
divided by the total weight. -/
def DocumentEvaluation.weighted_average
    (evaluations : List (DocumentEvaluation × Int)) : DocumentEvaluation :=
  if evaluations = [] then zeroEvaluation
  else
    let total_weight := totalWeight evaluations
    if total_weight = 0 then zeroEvaluation
    else
      let sums := evaluations.foldl addWeighted ⟨0, 0, 0, 0, 0, 0, 0⟩
      { relevance := sums.relevance / total_weight
        factual_accuracy := sums.factual_accuracy / total_weight
        clarity := sums.clarity / total_weight
        hallucination := sums.hallucination / total_weight
        style_match := sums.style_match / total_weight
        rag_usability := sums.rag_usability / total_weight
        citation_quality := sums.citation_quality / total_weight }

/-!
## The retrying chunk evaluator (`LLMEvaluator.evaluate_chunk`)

The remote call `client.chat.completions.create` followed by
`json.loads(content)` is the external collaborator; each attempt's outcome
is supplied by an oracle `Nat → AttemptResult` indexed by the zero-based
attempt number.  A successful round trip yields a parsed JSON value: either
an object (an association list of numeric fields) or some non-object value.
-/

/-- A parsed JSON response body. -/
inductive JsonVal where
  /-- A JSON object with numeric values. -/
  | obj (fields : List (Str × ℚ))
  /-- Any non-object JSON value (number, string, array, ...), described
  by its text. -/
  | nonObject (descr : Str)
deriving DecidableEq, Repr

/-- Outcome of one remote scoring round trip, as classified by the
`except` clauses of `evaluate_chunk`. -/
inductive AttemptResult where
  /-- The API call succeeded and `json.loads` parsed the content. -/
  | response (v : JsonVal)
  /-- `json.JSONDecodeError`: the content was not valid JSON. -/
  | jsonDecodeError (msg : Str)
  /-- `openai.RateLimitError`. -/
  | rateLimited (msg : Str)
  /-- `openai.APITimeoutError`. -/
  | timeout (msg : Str)
  /-- `openai.APIError`. -/
  | apiError (msg : Str)
deriving DecidableEq, Repr

/-- The exception raised out of `evaluate_chunk`. -/
inductive RaisedError where
  /-- `Rate limit exceeded after {max_retries} retries: {e}`. -/
  | rateLimitExceeded (max_retries : Nat) (msg : Str)
  /-- `API timeout after {max_retries} retries: {e}`. -/
  | timeoutExceeded (max_retries : Nat) (msg : Str)
  /-- `API error after {max_retries} retries: {e}` (APIError or
  JSONDecodeError). -/
  | apiErrorExceeded (max_retries : Nat) (msg : Str)
  /-- `Unexpected error during evaluation: {e}` (any other exception,
  e.g. `data.get` on a non-dict). -/
  | unexpected (msg : Str)
deriving DecidableEq, Repr

/-- What `evaluate_chunk` produces: a return value, a raised exception, or
the `return None` fall-through after the loop. -/
inductive ChunkResult where
  | ok (e : DocumentEvaluation)
  | raised (err : RaisedError)
  | noneReturned
deriving DecidableEq, Repr

/-- A run of `evaluate_chunk`: its result, the number of scoring calls
performed, and the list of sleep durations (seconds, in order). -/
structure ChunkRun where
  result : ChunkResult
  calls : Nat
  sleeps : List Nat
deriving DecidableEq, Repr

/-- Prepend one call and a possible sleep to a run. -/
def ChunkRun.afterRetry (sleep : Nat) (r : ChunkRun) : ChunkRun :=
  ⟨r.result, r.calls + 1, sleep :: r.sleeps⟩

/-- The `for attempt in range(self.max_retries)` loop of `evaluate_chunk`,
from attempt index `attempt` on.  The first argument is the number of loop
iterations left, `max_retries - attempt`; when it reaches zero the loop
falls through to `return None`. -/
def evalLoop (oracle : Nat → AttemptResult) (max_retries : Nat) :
    Nat → Nat → ChunkRun
  | 0, _attempt => ⟨.noneReturned, 0, []⟩
  | remaining + 1, attempt =>
    match oracle attempt with
    | .response v =>
      match v with
      | .obj fields => ⟨.ok (DocumentEvaluation.from_dict fields), 1, []⟩
      | .nonObject descr => ⟨.raised (.unexpected descr), 1, []⟩
    | .rateLimited msg =>
      if attempt < max_retries - 1 then
        (evalLoop oracle max_retries remaining (attempt + 1)).afterRetry (2 ^ attempt)
      else ⟨.raised (.rateLimitExceeded max_retries msg), 1, []⟩
    | .timeout msg =>
      if attempt < max_retries - 1 then
        (evalLoop oracle max_retries remaining (attempt + 1)).afterRetry 1
      else ⟨.raised (.timeoutExceeded max_retries msg), 1, []⟩
    | .apiError msg =>
      if attempt < max_retries - 1 then
        (evalLoop oracle max_retries remaining (attempt + 1)).afterRetry 1
      else ⟨.raised (.apiErrorExceeded max_retries msg), 1, []⟩
    | .jsonDecodeError msg =>
      if attempt < max_retries - 1 then
        (evalLoop oracle max_retries remaining (attempt + 1)).afterRetry 1
      else ⟨.raised (.apiErrorExceeded max_retries msg), 1, []⟩

/-- `LLMEvaluator.evaluate_chunk`, with the per-attempt remote outcome
supplied by `oracle`. -/
def evaluate_chunk (oracle : Nat → AttemptResult) (max_retries : Nat) : ChunkRun :=
  evalLoop oracle max_retries max_retries 0

/-- The surviving `(evaluation, weight)` samples collected by
`evaluate_chunks`: a failed or `None` chunk evaluation is skipped, a
successful one contributes `(evaluation, chunk.token_count)`. -/
def successfulSamples (evalOne : DocumentChunk → ChunkResult)
    (chunks : List DocumentChunk) : List (DocumentEvaluation × Int) :=
  chunks.filterMap fun c =>
    match evalOne c with
    | .ok e => some (e, (c.token_count : Int))
    | _ => none

/-- The message of the exception raised when no chunk survives. -/
def allChunksFailedMsg : Str := "Failed to evaluate any chunks in the document".data

/-- `LLMEvaluator.evaluate_chunks`, abstracted over the per-chunk result
`evalOne` (the outcome of `evaluate_chunk` on that chunk).  `Except.error`
is the raised exception. -/
def evaluate_chunks (evalOne : DocumentChunk → ChunkResult)
    (chunks : List DocumentChunk) : Except Str DocumentEvaluation :=
  let samples := successfulSamples evalOne chunks
  if samples = [] then .error allChunksFailedMsg
  else .ok (DocumentEvaluation.weighted_average samples)

/-- `output.EvaluationResult`. -/
structure EvaluationResult where
  filename : Str
  evaluation : Option DocumentEvaluation
  status : Str
  error_message : Option Str
deriving DecidableEq, Repr

/-- `main.evaluate_document`, for a document already parsed into `chunks`:
a successful aggregation yields `status='success'`; any raised exception is
caught and becomes `status='error'` with the exception text. -/
def evaluate_document (filename : Str) (evalOne : DocumentChunk → ChunkResult)
    (chunks : List DocumentChunk) : EvaluationResult :=
  match evaluate_chunks evalOne chunks with
  | .ok evaluation => ⟨filename, some evaluation, "success".data, none⟩
  | .error msg => ⟨filename, none, "error".data, some msg⟩

/-- A row of the CSV output, in the order of `CSVFormatter.FIELDNAMES`. -/
structure FlatRow where
  filename : Str
  relevance : ℚ
  factual_accuracy : ℚ
  clarity : ℚ
  hallucination : ℚ
  style_match : ℚ
  rag_usability : ℚ
  citation_quality : ℚ
  status : Str
  error_message : Str
deriving DecidableEq, Repr

/-- `EvaluationResult.to_flat_dict`: a missing evaluation contributes
zeros for all seven score dimensions; `error_message` defaults to `''`. -/
def EvaluationResult.to_flat_dict (r : EvaluationResult) : FlatRow :=
  match r.evaluation with
  | some e =>
      ⟨r.filename, e.relevance, e.factual_accuracy, e.clarity, e.hallucination,
        e.style_match, e.rag_usability, e.citation_quality,
        r.status, r.error_message.getD []⟩
  | none =>
      ⟨r.filename, 0, 0, 0, 0, 0, 0, 0, r.status, r.error_message.getD []⟩

/-- The seven numeric cells of a CSV row, in `FIELDNAMES` order. -/
def FlatRow.scoreCells (row : FlatRow) : List ℚ :=
  [row.relevance, row.factual_accuracy, row.clarity, row.hallucination,
    row.style_match, row.rag_usability, row.citation_quality]

/-!
## The segmenter (`DocumentParser.chunk_text`)

The loop state mirrors the source's `chunks` / `current_chunk` /
`current_tokens` variables.  Each completed chunk keeps, alongside the
joined text built exactly as in the source, the list of units (paragraphs
or stripped sentences) it was flushed from — the source discards that list
after joining, so carrying it changes nothing observable.
-/

/-- A completed chunk: the buffer it was flushed from and the joined
text appended to `chunks`. -/
structure Flushed where
  units : List Str
  text : Str
deriving DecidableEq, Repr

/-- The mutable state of the `chunk_text` loop. -/
structure ChunkState where
  chunks : List Flushed
  cur : List Str
  curTok : Nat
deriving DecidableEq, Repr

/-- Flush `current_chunk` with `'\n\n'.join` (lines 109 and 137 of
`document_parser.py`). -/
def flushPara (st : ChunkState) : ChunkState :=
  if st.cur = [] then st
  else ⟨st.chunks ++ [⟨st.cur, pyJoin nl2 st.cur⟩], [], 0⟩

/-- One iteration of the inner `for sentence in sentences` loop. -/
def senStep (tc : Str → Nat) (budget : Nat) (st : ChunkState) (raw : Str) : ChunkState :=
  let sentence := pyStrip raw
  if sentence = [] then st
  else
    let sentence_tokens := tc sentence
    let st1 :=
      if budget < st.curTok + sentence_tokens then
        if st.cur = [] then st
        else ⟨st.chunks ++ [⟨st.cur, pyJoin dotSp st.cur ++ ['.']⟩], [], 0⟩
      else st
    ⟨st1.chunks, st1.cur ++ [sentence], st1.curTok + sentence_tokens⟩

/-- One iteration of the outer `for para in paragraphs` loop. -/
def paraStep (tc : Str → Nat) (budget : Nat) (st : ChunkState) (para : Str) : ChunkState :=
  let para_tokens := tc para
  if budget < para_tokens then
    let st1 := flushPara st
    (pySplit2 '.' ' ' para).foldl (senStep tc budget) st1
  else
    let st1 := if budget < st.curTok + para_tokens then flushPara st else st
    ⟨st1.chunks, st1.cur ++ [para], st1.curTok + para_tokens⟩

/-- The trailing flush (lines 146–148): join with `'\n\n'` when the first
buffered element contains no newline, else with `'. '`. -/
def finalFlush (st : ChunkState) : List Flushed :=
  if st.cur = [] then st.chunks
  else if '\n' ∈ st.cur.headI then st.chunks ++ [⟨st.cur, pyJoin dotSp st.cur⟩]
  else st.chunks ++ [⟨st.cur, pyJoin nl2 st.cur⟩]

/-- The completed chunks of the multi-chunk path of `chunk_text`. -/
def chunkFlushesLong (tc : Str → Nat) (budget : Nat) (text : Str) : List Flushed :=
  finalFlush ((pySplit2 '\n' '\n' text).foldl (paraStep tc budget) ⟨[], [], 0⟩)

/-- The completed chunks of `chunk_text`, including the single-chunk
shortcut (a text whose total count fits the budget is one chunk, its own
single unit). -/
def chunkFlushes (tc : Str → Nat) (budget : Nat) (text : Str) : List Flushed :=
  if tc text ≤ budget then [⟨[text], text⟩]
  else chunkFlushesLong tc budget text

/-- `DocumentParser.chunk_text`: re-tokenize every emitted chunk text and
stamp `chunk_index` / `total_chunks`. -/
def chunk_text (tc : Str → Nat) (budget : Nat) (text : Str) : List DocumentChunk :=
  let chunks := (chunkFlushes tc budget text).map Flushed.text
  chunks.enum.map fun it => ⟨it.2, tc it.2, it.1, chunks.length⟩

/-!
## Atomic units and the separator-policy quotient

`atomicUnits` is the sentence-level decomposition of a text: paragraphs on
the `"\n\n"` boundary, sentences on the `". "` boundary, stripped, blanks
dropped — the units the segmenter refuses to split below.  `canonUnits` is
the same decomposition read back from an emitted chunk, additionally
erasing the separator artefacts the source re-inserts (a trailing `'.'`
appended at a sentence flush): units are compared after stripping
whitespace and trailing periods.
-/

/-- Strip whitespace and trailing `'.'` characters: the unit content left
once separator artefacts are erased. -/
def cleanUnit (u : Str) : Str :=
  pyStrip (((pyStrip u).reverse.dropWhile (· = '.')).reverse)

/-- The stripped, non-blank sentence units of one paragraph. -/
def rawSentences (p : Str) : List Str :=
  ((pySplit2 '.' ' ' p).map pyStrip).filter (· ≠ [])

/-- The sentence units of one newline-free piece, up to separator
artefacts. -/
def dotCanon (p : Str) : List Str :=
  ((pySplit2 '.' ' ' p).map cleanUnit).filter (· ≠ [])

/-- The stripped, non-blank sentence units of a text. -/
def atomicUnits (text : Str) : List Str :=
  (pySplit2 '\n' '\n' text).flatMap rawSentences

/-- The sentence units of a text up to separator artefacts. -/
def canonUnits (text : Str) : List Str :=
  (pySplit2 '\n' '\n' text).flatMap dotCanon

/-- The budget discipline a flushed buffer obeys: the token counts of its
units sum to at most the budget, unless it is a single sentence whose own
token count exceeds the budget. -/
def GoodBuffer (tc : Str → Nat) (budget : Nat) (b : List Str) : Prop :=
  (b.map tc).sum ≤ budget ∨ ∃ s, b = [s] ∧ budget < tc s

/-- The loop invariant of `chunk_text` behind claim C1: every flushed
buffer obeys the budget discipline, the running buffer obeys it too, and
`current_tokens` is exactly the sum of the unit token counts of the
running buffer. -/
def StateGood (tc : Str → Nat) (budget : Nat) (st : ChunkState) : Prop :=
  (∀ f ∈ st.chunks, GoodBuffer tc budget f.units) ∧
    st.curTok = (st.cur.map tc).sum ∧ GoodBuffer tc budget st.cur

/-- Whether the two-character separator `[x, y]` occurs (adjacently)
inside a string. -/
def hasPair (x y : Char) : Str → Bool
  | [] => false
  | [_] => false
  | a :: b :: t => (a = x && b = y) || hasPair x y (b :: t)

/-- Append `'.'` to the last piece of a split result. -/
def appendDotLast : List Str → List Str
  | [] => [['.']]
  | [p] => [p ++ ['.']]
  | p :: ps => p :: appendDotLast ps

/-- A unit as it sits in a sentence buffer: stripped, non-blank, free of
newlines and of the `". "` separator. -/
def SentUnit (u : Str) : Prop :=
  pyStrip u = u ∧ u ≠ [] ∧ '\n' ∉ u ∧ hasPair '.' ' ' u = false

/-- The sentence units, up to separator artefacts, carried by a loop
state: those of the flushed chunk texts followed by those of the running
buffer. -/
def canonState (st : ChunkState) : List Str :=
  (st.chunks.flatMap fun f => canonUnits f.text) ++ st.cur.flatMap dotCanon

/-!
## Theorems
-/

/-- Claim C3 as stated is false: at an empty sample list, and at a
nonempty list of zero total weight, `weighted_average` does not fail — it
returns the all-zero evaluation, indistinguishable from a valid all-zero
composite score. -/
theorem C3_counterexample :
    DocumentEvaluation.weighted_average [] = zeroEvaluation ∧
      DocumentEvaluation.weighted_average [(⟨5, 5, 5, 5, 5, 5, 5⟩, 0)] = zeroEvaluation := by
  constructor <;> rfl

/-- Claim C3 amended: whenever the input sample list is empty or its total
weight is zero, `weighted_average` returns the all-zero evaluation (it has
no error path), so the caller cannot distinguish "nothing to aggregate"
from a valid all-zero composite score by the returned value. -/
theorem C3_amended_weighted_average_degenerate (evaluations : List (DocumentEvaluation × Int))
    (h : evaluations = [] ∨ totalWeight evaluations = 0) :
    DocumentEvaluation.weighted_average evaluations = zeroEvaluation := by
  rcases h with h | h
  · simp [DocumentEvaluation.weighted_average, h]
  · by_cases he : evaluations = [] <;>
      simp [DocumentEvaluation.weighted_average, he, h]

/-- Witness for the amended claim C3 at a concrete zero-weight input. -/
theorem C3_amended_witness :
    DocumentEvaluation.weighted_average [(⟨1, 2, 3, 4, 5, 6, 7⟩, 0)] = zeroEvaluation :=
  C3_amended_weighted_average_degenerate [(⟨1, 2, 3, 4, 5, 6, 7⟩, 0)] (Or.inr (by decide))

/-- Claim C4 as stated is false: on the empty text (under any tokenizer
the empty text costs 0 ≤ budget tokens, here the character-count tokenizer
with budget 4000) `chunk_text` returns one chunk with empty text, not the
empty sequence. -/
theorem C4_counterexample :
    chunk_text List.length 4000 [] = [⟨[], 0, 0, 1⟩] ∧
      chunk_text List.length 4000 [] ≠ [] := by
  constructor <;> decide

/-- Claim C4 amended: for the empty input text (whose token count fits the
budget), `chunk_text` returns exactly one chunk, whose text is the empty
string — the single-chunk shortcut applies; the result is neither an error
nor an empty sequence. -/
theorem C4_amended_empty_text_single_chunk (tc : Str → Nat) (budget : Nat)
    (h : tc [] ≤ budget) :
    chunk_text tc budget [] = [⟨[], tc [], 0, 1⟩] := by
  unfold chunk_text chunkFlushes
  rw [if_pos h]
  rfl

/-- Witness for the amended claim C4 at the character-count tokenizer. -/
theorem C4_amended_witness :
    chunk_text List.length 4000 [] = [⟨[], List.length ([] : Str), 0, 1⟩] :=
  C4_amended_empty_text_single_chunk List.length 4000 (by decide)

/-- The accumulation loop of `weighted_average` computes, per dimension,
the starting value plus `Σ (dimension × weight)`. -/
theorem foldl_addWeighted (l : List (DocumentEvaluation × Int)) (acc : WeightedSums) :
    l.foldl addWeighted acc =
      ⟨acc.relevance + (l.map fun ew => ew.1.relevance * (ew.2 : ℚ)).sum,
        acc.factual_accuracy + (l.map fun ew => ew.1.factual_accuracy * (ew.2 : ℚ)).sum,
        acc.clarity + (l.map fun ew => ew.1.clarity * (ew.2 : ℚ)).sum,
        acc.hallucination + (l.map fun ew => ew.1.hallucination * (ew.2 : ℚ)).sum,
        acc.style_match + (l.map fun ew => ew.1.style_match * (ew.2 : ℚ)).sum,
        acc.rag_usability + (l.map fun ew => ew.1.rag_usability * (ew.2 : ℚ)).sum,
        acc.citation_quality + (l.map fun ew => ew.1.citation_quality * (ew.2 : ℚ)).sum⟩ := by
  induction l generalizing acc with
  | nil => cases acc; simp
  | cons head tail ih => simp [ih, addWeighted, add_assoc]

/-- Claim C9: for a nonempty sample list of nonzero total weight,
`weighted_average` computes every one of the seven dimensions
independently as `Σ (dimension_value × weight) / Σ weight`. -/
theorem C9_weighted_average_formula (evaluations : List (DocumentEvaluation × Int))
    (h1 : evaluations ≠ []) (h2 : totalWeight evaluations ≠ 0) :
    DocumentEvaluation.weighted_average evaluations =
      ⟨(evaluations.map fun ew => ew.1.relevance * (ew.2 : ℚ)).sum / (totalWeight evaluations : ℚ),
        (evaluations.map fun ew => ew.1.factual_accuracy * (ew.2 : ℚ)).sum / (totalWeight evaluations : ℚ),
        (evaluations.map fun ew => ew.1.clarity * (ew.2 : ℚ)).sum / (totalWeight evaluations : ℚ),
        (evaluations.map fun ew => ew.1.hallucination * (ew.2 : ℚ)).sum / (totalWeight evaluations : ℚ),
        (evaluations.map fun ew => ew.1.style_match * (ew.2 : ℚ)).sum / (totalWeight evaluations : ℚ),
        (evaluations.map fun ew => ew.1.rag_usability * (ew.2 : ℚ)).sum / (totalWeight evaluations : ℚ),
        (evaluations.map fun ew => ew.1.citation_quality * (ew.2 : ℚ)).sum / (totalWeight evaluations : ℚ)⟩ := by
  unfold DocumentEvaluation.weighted_average
  rw [if_neg h1]
  simp only [h2, if_false, foldl_addWeighted, zero_add]

/-- Witness for claim C9: an all-5s score of weight 10 aggregated with an
all-0s score of weight 30 yields 1.25 in every dimension. -/
theorem C9_witness :
    DocumentEvaluation.weighted_average [(⟨5, 5, 5, 5, 5, 5, 5⟩, 10), (⟨0, 0, 0, 0, 0, 0, 0⟩, 30)] =
      ⟨5/4, 5/4, 5/4, 5/4, 5/4, 5/4, 5/4⟩ := by
  rw [C9_weighted_average_formula _ (by decide) (by decide)]
  norm_num [totalWeight]

/-- Claim C10: a failed document (no evaluation) produces a CSV row whose
seven score cells are all zero — identical to the score cells of a
successful document with a genuine all-zero composite, whatever the
status and error-message columns of either row. -/
theorem C10_flat_row_failed_is_zero (fn st st2 : Str) (em em2 : Option Str) :
    (EvaluationResult.mk fn none st em).to_flat_dict.scoreCells = List.replicate 7 0 ∧
      (EvaluationResult.mk fn none st em).to_flat_dict.scoreCells =
        (EvaluationResult.mk fn (some zeroEvaluation) st2 em2).to_flat_dict.scoreCells := by
  exact ⟨rfl, rfl⟩

/-- Claim C5: whenever at least one chunk evaluation survives, the
document outcome is a success whose composite is the weighted average of
exactly the surviving `(evaluation, token_count)` samples — failed chunks
are skipped, not fatal. -/
theorem C5_partial_failure_tolerance (fn : Str) (evalOne : DocumentChunk → ChunkResult)
    (chunks : List DocumentChunk) (h : successfulSamples evalOne chunks ≠ []) :
    evaluate_document fn evalOne chunks =
      ⟨fn, some (DocumentEvaluation.weighted_average (successfulSamples evalOne chunks)),
        "success".data, none⟩ := by
  unfold evaluate_document evaluate_chunks
  simp [h]

/-- Witness for claim C5: a 3-chunk document whose middle chunk exhausts
its retries still succeeds, with the composite computed from chunks 1 and
3 only (weights 10 and 30, scores all-5 and all-0, composite 1.25). -/
theorem C5_witness :
    evaluate_document "doc.docx".data
      (fun c =>
        if c.chunk_index = 1 then .raised (.rateLimitExceeded 3 "rate limited".data)
        else if c.chunk_index = 0 then .ok ⟨5, 5, 5, 5, 5, 5, 5⟩
        else .ok ⟨0, 0, 0, 0, 0, 0, 0⟩)
      [⟨"a".data, 10, 0, 3⟩, ⟨"b".data, 20, 1, 3⟩, ⟨"c".data, 30, 2, 3⟩] =
      ⟨"doc.docx".data, some ⟨5/4, 5/4, 5/4, 5/4, 5/4, 5/4, 5/4⟩, "success".data, none⟩ := by
  rw [C5_partial_failure_tolerance _ _ _ (by decide)]
  have hs : successfulSamples
      (fun c =>
        if c.chunk_index = 1 then .raised (.rateLimitExceeded 3 "rate limited".data)
        else if c.chunk_index = 0 then .ok ⟨5, 5, 5, 5, 5, 5, 5⟩
        else .ok ⟨0, 0, 0, 0, 0, 0, 0⟩)
      [⟨"a".data, 10, 0, 3⟩, ⟨"b".data, 20, 1, 3⟩, ⟨"c".data, 30, 2, 3⟩] =
      [(⟨5, 5, 5, 5, 5, 5, 5⟩, 10), (⟨0, 0, 0, 0, 0, 0, 0⟩, 30)] := by decide
  rw [hs, C9_witness]

/-- Claim C6: when every chunk's evaluation fails (no `evalOne` result is
a success), document processing still returns a normal outcome — a total
function value, not an escaping exception — with status `'error'`, the
all-chunks-failed message, and no composite score. -/
theorem C6_total_failure (fn : Str) (evalOne : DocumentChunk → ChunkResult)
    (chunks : List DocumentChunk) (h : ∀ c ∈ chunks, ∀ e, evalOne c ≠ .ok e) :
    evaluate_document fn evalOne chunks =
      ⟨fn, none, "error".data, some allChunksFailedMsg⟩ := by
  have hs : successfulSamples evalOne chunks = [] := by
    unfold successfulSamples
    rw [List.filterMap_eq_nil_iff]
    intro c hc
    cases hcr : evalOne c with
    | ok e => exact absurd hcr (h c hc e)
    | raised err => rfl
    | noneReturned => rfl
  unfold evaluate_document evaluate_chunks
  simp [hs]

/-- Witness for claim C6: a 2-chunk document in which both chunks exhaust
their retries produces the status-`error` outcome with the
`AllChunksFailed` message and an absent composite. -/
theorem C6_witness :
    evaluate_document "doc.docx".data
      (fun _ => .raised (.apiErrorExceeded 3 "bad json".data))
      [⟨"a".data, 10, 0, 2⟩, ⟨"b".data, 20, 1, 2⟩] =
      ⟨"doc.docx".data, none, "error".data, some allChunksFailedMsg⟩ :=
  C6_total_failure _ _ _ (by intro c _ e hcontra; simp at hcontra)

/-- Claim C7: with a scorer that raises `RateLimited` on every call and
`max_retries = 3`, `evaluate_chunk` performs exactly 3 scoring calls,
sleeps `2^0` then `2^1` seconds before the two retries (zero-based attempt
indices), and raises a terminal failure that carries the rate-limit class
and the last error's detail; the total backoff is at least `2^0 + 2^1`
seconds. -/
theorem C7_retry_exhaustion (msg : Str) :
    evaluate_chunk (fun _ => .rateLimited msg) 3 =
      ⟨.raised (.rateLimitExceeded 3 msg), 3, [2 ^ 0, 2 ^ 1]⟩ ∧
      2 ^ 0 + 2 ^ 1 ≤ (evaluate_chunk (fun _ => .rateLimited msg) 3).sleeps.sum :=
  ⟨rfl, Nat.le.refl⟩

/-- Claim C8 as stated is false: a JSON-object response with none of the
seven score-dimension keys is not rejected as a parse failure — on the
very first call it is accepted as a fully-defaulted all-zero Score. -/
theorem C8_counterexample :
    evaluate_chunk (fun _ => .response (.obj [])) 3 = ⟨.ok zeroEvaluation, 1, []⟩ ∧
      DocumentEvaluation.from_dict [] = zeroEvaluation := by
  constructor <;> decide

/-- Claim C8 amended: any JSON-object response is accepted on the attempt
that received it, with absent dimensions defaulted to 0 and unknown keys
ignored (`from_dict`); a response that is not valid JSON is retried as a
transient failure with a 1-second backoff until attempts are exhausted;
and a response that is valid JSON but not an object raises an immediate
terminal failure with no retry. -/
theorem C8_amended_response_handling (fields : List (Str × ℚ)) (descr msg : Str)
    (n : Nat) (hn : 0 < n) :
    evaluate_chunk (fun _ => .response (.obj fields)) n =
        ⟨.ok (DocumentEvaluation.from_dict fields), 1, []⟩ ∧
      evaluate_chunk (fun _ => .response (.nonObject descr)) n =
        ⟨.raised (.unexpected descr), 1, []⟩ ∧
      evaluate_chunk (fun _ => .jsonDecodeError msg) 3 =
        ⟨.raised (.apiErrorExceeded 3 msg), 3, [1, 1]⟩ := by
  obtain ⟨m, rfl⟩ := Nat.exists_eq_succ_of_ne_zero hn.ne'
  exact ⟨rfl, rfl, rfl⟩

/-- Witness for the amended claim C8 at concrete inputs. -/
theorem C8_amended_witness :
    evaluate_chunk (fun _ => .response (.obj [])) 2 =
        ⟨.ok (DocumentEvaluation.from_dict []), 1, []⟩ ∧
      evaluate_chunk (fun _ => .response (.nonObject "5".data)) 2 =
        ⟨.raised (.unexpected "5".data), 1, []⟩ ∧
      evaluate_chunk (fun _ => .jsonDecodeError "not json".data) 3 =
        ⟨.raised (.apiErrorExceeded 3 "not json".data), 3, [1, 1]⟩ :=
  C8_amended_response_handling [] "5".data "not json".data 2 (by decide)

/-- The empty buffer obeys the budget discipline. -/
theorem goodBuffer_nil (tc : Str → Nat) (budget : Nat) : GoodBuffer tc budget [] :=
  Or.inl (by simp)

/-- A one-unit buffer always obeys the budget discipline: within budget,
or a single oversized unit. -/
theorem goodBuffer_single (tc : Str → Nat) (budget : Nat) (s : Str) :
    GoodBuffer tc budget [s] := by
  rcases le_or_lt (tc s) budget with h | h
  · exact Or.inl (by simpa using h)
  · exact Or.inr ⟨s, rfl, h⟩

/-- The running buffer is always empty right after `flushPara`. -/
theorem flushPara_cur (st : ChunkState) : (flushPara st).cur = [] := by
  unfold flushPara
  split
  · rename_i hnil
    exact hnil
  · rfl

/-- `flushPara` preserves the C1 loop invariant. -/
theorem flushPara_good (tc : Str → Nat) (budget : Nat) (st : ChunkState)
    (h : StateGood tc budget st) : StateGood tc budget (flushPara st) := by
  obtain ⟨hc, ht, hcur⟩ := h
  unfold flushPara
  split
  · exact ⟨hc, ht, hcur⟩
  · refine ⟨?_, rfl, goodBuffer_nil tc budget⟩
    intro f hf
    rcases List.mem_append.mp hf with hf | hf
    · exact hc f hf
    · rw [List.mem_singleton] at hf
      subst hf
      exact hcur

/-- One sentence-loop step preserves the C1 loop invariant. -/
theorem senStep_good (tc : Str → Nat) (budget : Nat) (st : ChunkState) (raw : Str)
    (h : StateGood tc budget st) : StateGood tc budget (senStep tc budget st raw) := by
  obtain ⟨hc, ht, hcur⟩ := h
  simp only [senStep]
  by_cases h0 : pyStrip raw = []
  · rw [if_pos h0]
    exact ⟨hc, ht, hcur⟩
  · rw [if_neg h0]
    by_cases h1 : budget < st.curTok + tc (pyStrip raw)
    · rw [if_pos h1]
      by_cases h2 : st.cur = []
      · rw [if_pos h2]
        exact ⟨hc, by simp [h2, ht], by simpa [h2] using goodBuffer_single tc budget (pyStrip raw)⟩
      · rw [if_neg h2]
        refine ⟨?_, by simp, by simpa using goodBuffer_single tc budget (pyStrip raw)⟩
        intro f hf
        rcases List.mem_append.mp hf with hf | hf
        · exact hc f hf
        · rw [List.mem_singleton] at hf
          subst hf
          exact hcur
    · rw [if_neg h1]
      push_neg at h1
      refine ⟨hc, by simp [ht], Or.inl ?_⟩
      rw [ht] at h1
      simpa using h1

/-- The sentence fold preserves the C1 loop invariant. -/
theorem foldl_senStep_good (tc : Str → Nat) (budget : Nat) :
    ∀ (l : List Str) (st : ChunkState), StateGood tc budget st →
      StateGood tc budget (l.foldl (senStep tc budget) st)
  | [], _, h => h
  | r :: l, st, h => foldl_senStep_good tc budget l _ (senStep_good tc budget st r h)

/-- One paragraph-loop step preserves the C1 loop invariant. -/
theorem paraStep_good (tc : Str → Nat) (budget : Nat) (st : ChunkState) (para : Str)
    (h : StateGood tc budget st) : StateGood tc budget (paraStep tc budget st para) := by
  simp only [paraStep]
  by_cases h1 : budget < tc para
  · rw [if_pos h1]
    exact foldl_senStep_good tc budget _ _ (flushPara_good tc budget st h)
  · rw [if_neg h1]
    push_neg at h1
    by_cases h2 : budget < st.curTok + tc para
    · rw [if_pos h2]
      obtain ⟨hc', ht', hcur'⟩ := flushPara_good tc budget st h
      have hcur0 : (flushPara st).cur = [] := flushPara_cur st
      rw [hcur0] at ht'
      simp only [List.map_nil, List.sum_nil] at ht'
      refine ⟨hc', ?_, ?_⟩
      · rw [hcur0, ht']
        simp
      · rw [hcur0]
        simpa using goodBuffer_single tc budget para
    · rw [if_neg h2]
      push_neg at h2
      obtain ⟨hc, ht, hcur⟩ := h
      refine ⟨hc, by simp [ht], Or.inl ?_⟩
      rw [ht] at h2
      simpa using h2

/-- The paragraph fold preserves the C1 loop invariant. -/
theorem foldl_paraStep_good (tc : Str → Nat) (budget : Nat) :
    ∀ (l : List Str) (st : ChunkState), StateGood tc budget st →
      StateGood tc budget (l.foldl (paraStep tc budget) st)
  | [], _, h => h
  | p :: l, st, h => foldl_paraStep_good tc budget l _ (paraStep_good tc budget st p h)

/-- Every buffer emitted by the trailing flush obeys the budget
discipline. -/
theorem finalFlush_good (tc : Str → Nat) (budget : Nat) (st : ChunkState)
    (h : StateGood tc budget st) : ∀ f ∈ finalFlush st, GoodBuffer tc budget f.units := by
  obtain ⟨hc, ht, hcur⟩ := h
  intro f hf
  unfold finalFlush at hf
  split at hf
  · exact hc f hf
  · split at hf <;>
    · rcases List.mem_append.mp hf with hf | hf
      · exact hc f hf
      · rw [List.mem_singleton] at hf
        subst hf
        exact hcur

/-- Every completed chunk of `chunk_text` is flushed from a buffer that
obeys the budget discipline. -/
theorem chunkFlushes_good (tc : Str → Nat) (budget : Nat) (text : Str) :
    ∀ f ∈ chunkFlushes tc budget text, GoodBuffer tc budget f.units := by
  intro f hf
  unfold chunkFlushes at hf
  split at hf
  · rename_i hle
    rw [List.mem_singleton] at hf
    subst hf
    exact Or.inl (by simpa using hle)
  · exact finalFlush_good tc budget _
      (foldl_paraStep_good tc budget _ _ ⟨by simp, rfl, goodBuffer_nil tc budget⟩) f hf

/-- Claim C1 as stated is false: under the character-count tokenizer with
budget 7, the text `"aaa\n\nbbb\n\nccc"` produces a chunk whose
re-tokenized `token_count` exceeds the budget (the greedy accumulation
sums unit counts without the re-inserted `"\n\n"` separator), although no
atomic unit of the text exceeds the budget and the chunk is not an atomic
unit emitted whole. -/
theorem C1_counterexample :
    ∃ c ∈ chunk_text List.length 7 "aaa\n\nbbb\n\nccc".data,
      7 < c.token_count ∧ c.text ∉ atomicUnits "aaa\n\nbbb\n\nccc".data ∧
        ∀ u ∈ atomicUnits "aaa\n\nbbb\n\nccc".data, u.length ≤ 7 := by
  decide

/-- Claim C1 amended: for every tokenizer, positive budget and text, every
chunk of `chunk_text` is flushed from a buffer of units (paragraphs or
stripped sentences, never anything below one sentence) whose token counts
sum to at most the budget — except a buffer holding a single sentence that
alone exceeds the budget, which is emitted whole.  The chunk's re-tokenized
`token_count` itself may exceed the budget by the tokens of the re-inserted
separators. -/
theorem C1_amended_budget_discipline (tc : Str → Nat) (budget : Nat) (text : Str)
    (hb : 0 < budget) (c : DocumentChunk) (hc : c ∈ chunk_text tc budget text) :
    ∃ f ∈ chunkFlushes tc budget text, c.text = f.text ∧ GoodBuffer tc budget f.units := by
  unfold chunk_text at hc
  rw [List.mem_map] at hc
  obtain ⟨it, hit, rfl⟩ := hc
  have h2 : it.2 ∈ (chunkFlushes tc budget text).map Flushed.text :=
    List.get?_mem (List.mem_enum_iff_get?.mp hit)
  rw [List.mem_map] at h2
  obtain ⟨f, hf, hft⟩ := h2
  exact ⟨f, hf, hft.symm, chunkFlushes_good tc budget text f hf⟩

/-- Witness for the amended claim C1 at the counterexample's input. -/
theorem C1_amended_witness :
    ∃ f ∈ chunkFlushes List.length 7 "aaa\n\nbbb\n\nccc".data,
      (⟨"aaa\n\nbbb".data, 8, 0, 2⟩ : DocumentChunk).text = f.text ∧
        GoodBuffer List.length 7 f.units :=
  C1_amended_budget_discipline List.length 7 "aaa\n\nbbb\n\nccc".data (by decide)
    ⟨"aaa\n\nbbb".data, 8, 0, 2⟩ (by decide)

/-- A split never yields an empty list of pieces. -/
theorem pySplit2_ne_nil (x y : Char) (s : Str) : pySplit2 x y s ≠ [] := by
  induction s using pySplit2.induct x y with
  | case1 => simp [pySplit2]
  | case2 c => simp [pySplit2]
  | case3 a b t h ih => simp [pySplit2, h, ih]
  | case4 a b t h ih =>
    simp only [pySplit2, if_neg h]
    cases hps : pySplit2 x y (b :: t) with
    | nil => exact absurd hps ih
    | cons p ps => simp [consHead]

/-- `consHead` distributes over a nonempty left append. -/
theorem consHead_append (c : Char) (l l' : List Str) (h : l ≠ []) :
    consHead c (l ++ l') = consHead c l ++ l' := by
  cases l with
  | nil => exact absurd rfl h
  | cons p ps => simp [consHead]

/-- The first piece of a split is a prefix of the string. -/
theorem first_piece_prefix (x y : Char) (s : Str) :
    ∀ p ps, pySplit2 x y s = p :: ps → ∃ r, s = p ++ r := by
  induction s using pySplit2.induct x y with
  | case1 =>
    intro p ps h
    simp only [pySplit2] at h
    rcases h
    exact ⟨[], rfl⟩
  | case2 c =>
    intro p ps h
    simp only [pySplit2] at h
    rcases h
    exact ⟨[], rfl⟩
  | case3 a b t h ih =>
    intro p ps hp
    simp only [pySplit2, if_pos h] at hp
    rcases hp
    exact ⟨a :: b :: t, rfl⟩
  | case4 a b t h ih =>
    intro p ps hp
    simp only [pySplit2, if_neg h] at hp
    cases hps : pySplit2 x y (b :: t) with
    | nil => exact absurd hps (pySplit2_ne_nil x y _)
    | cons p₀ ps₀ =>
      rw [hps] at hp
      simp only [consHead] at hp
      obtain ⟨r, hr⟩ := ih p₀ ps₀ hps
      rcases hp
      exact ⟨r, by rw [List.cons_append, ← hr]⟩

/-- A string containing the adjacent pair `x, y` has `hasPair`. -/
theorem hasPair_append_pair (x y : Char) :
    ∀ (u v : Str), hasPair x y (u ++ x :: y :: v) = true
  | [], v => by simp [hasPair]
  | [c], v => by
    have h := hasPair_append_pair x y [] v
    simp only [List.nil_append] at h
    simp [hasPair, h]
  | c1 :: c2 :: t, v => by
    have h := hasPair_append_pair x y (c2 :: t) v
    simp only [List.cons_append] at h ⊢
    simp [hasPair, h]

/-- A string with `hasPair` decomposes around an adjacent `x, y` pair. -/
theorem hasPair_true_decomp (x y : Char) :
    ∀ (z : Str), hasPair x y z = true → ∃ u v, z = u ++ x :: y :: v
  | [], h => by simp [hasPair] at h
  | [c], h => by simp [hasPair] at h
  | a :: b :: t, h => by
    rw [hasPair, Bool.or_eq_true] at h
    rcases h with h | h
    · simp only [Bool.and_eq_true, decide_eq_true_eq] at h
      exact ⟨[], t, by simp [h.1, h.2]⟩
    · obtain ⟨u, v, huv⟩ := hasPair_true_decomp x y (b :: t) h
      exact ⟨a :: u, v, by rw [List.cons_append, ← huv]⟩

/-- `hasPair` is monotone under infixes (contrapositive form). -/
theorem hasPair_mono (x y : Char) (z s : Str) (hzs : z <:+: s)
    (h : hasPair x y z = true) : hasPair x y s = true := by
  obtain ⟨l, r, rfl⟩ := hzs
  obtain ⟨u, v, rfl⟩ := hasPair_true_decomp x y z h
  have : l ++ (u ++ x :: y :: v) ++ r = (l ++ u) ++ x :: y :: (v ++ r) := by simp
  rw [this]
  exact hasPair_append_pair x y (l ++ u) (v ++ r)

/-- A string avoiding the character `x` has no `x, y` pair. -/
theorem hasPair_eq_false_of_not_mem (x y : Char) :
    ∀ (s : Str), x ∉ s → hasPair x y s = false
  | [], _ => rfl
  | [c], _ => rfl
  | a :: b :: t, h => by
    have ha : a ≠ x := fun hax => h (hax ▸ List.mem_cons_self a _)
    have ht : x ∉ b :: t := fun hx => h (List.mem_cons_of_mem a hx)
    simp [hasPair, ha, hasPair_eq_false_of_not_mem x y (b :: t) ht]

/-- A string without the separator pair splits into itself. -/
theorem pySplit2_eq_single (x y : Char) (s : Str) (h : hasPair x y s = false) :
    pySplit2 x y s = [s] := by
  induction s using pySplit2.induct x y with
  | case1 => rfl
  | case2 c => rfl
  | case3 a b t hm ih =>
    rw [hasPair] at h
    simp [hm.1, hm.2] at h
  | case4 a b t hm ih =>
    rw [hasPair, Bool.or_eq_false_iff] at h
    rw [pySplit2, if_neg hm, ih h.2, consHead]

/-- Every piece of a split is free of the separator pair. -/
theorem split_pieces_noPair (x y : Char) (s : Str) :
    ∀ p ∈ pySplit2 x y s, hasPair x y p = false := by
  induction s using pySplit2.induct x y with
  | case1 =>
    intro p hp
    simp only [pySplit2, List.mem_singleton] at hp
    subst hp
    rfl
  | case2 c =>
    intro p hp
    simp only [pySplit2, List.mem_singleton] at hp
    subst hp
    rfl
  | case3 a b t h ih =>
    intro p hp
    simp only [pySplit2, if_pos h, List.mem_cons] at hp
    rcases hp with rfl | hp
    · rfl
    · exact ih p hp
  | case4 a b t h ih =>
    intro p hp
    simp only [pySplit2, if_neg h] at hp
    cases hps : pySplit2 x y (b :: t) with
    | nil => exact absurd hps (pySplit2_ne_nil x y _)
    | cons p₀ ps₀ =>
      rw [hps] at hp
      simp only [consHead, List.mem_cons] at hp
      rcases hp with rfl | hp
      · cases hp₀ : p₀ with
        | nil => rfl
        | cons d p₁ =>
          obtain ⟨r, hr⟩ := first_piece_prefix x y (b :: t) p₀ ps₀ hps
          rw [hp₀] at hr
          have hd : d = b := by
            rw [List.cons_append] at hr
            exact (List.cons.injEq .. ▸ hr).1.symm
          have hp₀mem : p₀ ∈ pySplit2 x y (b :: t) := by rw [hps]; exact List.mem_cons_self _ _
          have hnp := ih p₀ hp₀mem
          rw [hp₀] at hnp
          subst hd
          rw [hasPair, Bool.or_eq_false_iff]
          constructor
          · by_cases hax : a = x
            · subst hax
              have : ¬ d = y := fun hy => h ⟨rfl, hy⟩
              simp [this]
            · simp [hax]
          · exact hnp
      · have : p ∈ pySplit2 x y (b :: t) := by rw [hps]; exact List.mem_cons_of_mem _ hp
        exact ih p this

/-- Splitting on a two-character separator with distinct characters is a
homomorphism over an inserted separator: the separator cannot overlap
itself or the surrounding text. -/
theorem pySplit2_append_sep (x y : Char) (hxy : x ≠ y) (r : Str) :
    ∀ s : Str, pySplit2 x y (s ++ x :: y :: r) = pySplit2 x y s ++ pySplit2 x y r := by
  intro s
  induction s using pySplit2.induct x y with
  | case1 => simp [pySplit2]
  | case2 c =>
    have hc : ¬(c = x ∧ x = y) := fun hh => hxy hh.2
    simp only [List.cons_append, List.nil_append, pySplit2, if_neg hc]
    simp [consHead]
  | case3 a b t h ih =>
    simp only [List.cons_append, List.append_eq, pySplit2, if_pos h, ih]
  | case4 a b t h ih =>
    simp only [List.cons_append, List.append_eq, pySplit2, if_neg h]
    rw [show b :: (t ++ x :: y :: r) = (b :: t) ++ x :: y :: r from rfl, ih,
      consHead_append a _ _ (pySplit2_ne_nil x y (b :: t))]

/-- Splitting on a doubled separator character over an inserted separator,
when the left part avoids that character entirely. -/
theorem pySplit2_append_sep_left_free (x y : Char) (r : Str) :
    ∀ s : Str, x ∉ s → pySplit2 x y (s ++ x :: y :: r) = s :: pySplit2 x y r := by
  intro s
  induction s using pySplit2.induct x y with
  | case1 =>
    intro _
    simp [pySplit2]
  | case2 c =>
    intro hmem
    have hc : ¬(c = x ∧ x = y) := fun hh => hmem (by simp [hh.1])
    simp only [List.cons_append, List.nil_append, pySplit2, if_neg hc]
    simp [consHead]
  | case3 a b t h ih =>
    intro hmem
    exact absurd (by simp [h.1]) hmem
  | case4 a b t h ih =>
    intro hmem
    have hbt : x ∉ b :: t := fun hx => hmem (List.mem_cons_of_mem a hx)
    simp only [List.cons_append, List.append_eq, pySplit2, if_neg h]
    rw [show b :: (t ++ x :: y :: r) = (b :: t) ++ x :: y :: r from rfl, ih hbt, consHead]

/-- `'sep'.join([u]) = u`. -/
theorem pyJoin_single (sep : Str) (u : Str) : pyJoin sep [u] = u := by
  simp [pyJoin, List.intercalate]

/-- `'sep'.join(u :: l)` for nonempty `l` prepends `u ++ sep`. -/
theorem pyJoin_cons (sep : Str) (u v : Str) (t : List Str) :
    pyJoin sep (u :: v :: t) = u ++ sep ++ pyJoin sep (v :: t) := by
  simp [pyJoin, List.intercalate, List.intersperse]

/-- Splitting a `"\n\n"`-join of newline-free pieces recovers the
pieces. -/
theorem splitN_join : ∀ (l : List Str), (∀ u ∈ l, '\n' ∉ u) → l ≠ [] →
    pySplit2 '\n' '\n' (pyJoin nl2 l) = l
  | [], _, hne => absurd rfl hne
  | [u], h, _ => by
    rw [pyJoin_single]
    exact pySplit2_eq_single '\n' '\n' u
      (hasPair_eq_false_of_not_mem '\n' '\n' u (h u (List.mem_singleton.mpr rfl)))
  | u :: v :: t, h, _ => by
    rw [pyJoin_cons]
    have hu : '\n' ∉ u := h u (List.mem_cons_self _ _)
    have hrest := splitN_join (v :: t) (fun w hw => h w (List.mem_cons_of_mem u hw))
      (List.cons_ne_nil v t)
    rw [List.append_assoc, show nl2 ++ pyJoin nl2 (v :: t) =
      '\n' :: '\n' :: pyJoin nl2 (v :: t) from rfl]
    rw [pySplit2_append_sep_left_free '\n' '\n' _ u hu, hrest]

/-- The head that survives `dropWhile` fails the predicate. -/
theorem head_dropWhile_false (p : Char → Bool) :
    ∀ (l : Str) (a : Char) (t : Str), l.dropWhile p = a :: t → p a = false
  | [], a, t, h => by simp at h
  | c :: rest, a, t, h => by
    rw [List.dropWhile_cons] at h
    by_cases hp : p c = true
    · rw [if_pos hp] at h
      exact head_dropWhile_false p rest a t h
    · rw [if_neg hp] at h
      rcases h
      exact Bool.eq_false_iff.mpr hp

/-- A list whose head fails the predicate is untouched by `dropWhile`. -/
theorem dropWhile_cons_false (p : Char → Bool) (a : Char) (t : Str) (h : p a = false) :
    (a :: t).dropWhile p = a :: t := by
  rw [List.dropWhile_cons, if_neg (by simp [h])]

/-- Right-trimming yields a prefix of the original list. -/
theorem rtrim_prefix (q : Str) : (q.reverse.dropWhile isPySpace).reverse <+: q := by
  rw [← List.reverse_suffix, List.reverse_reverse]
  exact List.dropWhile_suffix isPySpace

/-- `strip` is idempotent. -/
theorem pyStrip_idem (s : Str) : pyStrip (pyStrip s) = pyStrip s := by
  unfold pyStrip
  have hl : (((s.dropWhile isPySpace).reverse.dropWhile isPySpace).reverse).dropWhile isPySpace
      = ((s.dropWhile isPySpace).reverse.dropWhile isPySpace).reverse := by
    cases hr : ((s.dropWhile isPySpace).reverse.dropWhile isPySpace).reverse with
    | nil => simp
    | cons a t =>
      obtain ⟨w, hw⟩ := rtrim_prefix (s.dropWhile isPySpace)
      rw [hr] at hw
      have ha : isPySpace a = false := by
        apply head_dropWhile_false isPySpace s a (t ++ w)
        rw [← hw]
        rfl
      exact dropWhile_cons_false isPySpace a t ha
  rw [hl, List.reverse_reverse, List.dropWhile_idempotent]

/-- The last element of a nonempty suffix is the last element of the whole
list. -/
theorem getLast?_of_suffix (z p : Str) (hz : z <:+ p) (hne : z ≠ []) :
    p.getLast? = z.getLast? := by
  obtain ⟨w, rfl⟩ := hz
  rw [List.getLast?_append]
  cases hzl : z.getLast? with
  | none => exact absurd (List.getLast?_eq_none_iff.mp hzl) hne
  | some c => rfl

/-- A nonempty stripped string ends in a non-whitespace character. -/
theorem pyStrip_getLast_not_ws (s : Str) (h : pyStrip s ≠ []) :
    ∃ c, (pyStrip s).getLast? = some c ∧ isPySpace c = false := by
  unfold pyStrip at h ⊢
  cases hz : (s.dropWhile isPySpace).reverse.dropWhile isPySpace with
  | nil => rw [hz] at h; simp at h
  | cons a t =>
    refine ⟨a, ?_, head_dropWhile_false isPySpace _ a t hz⟩
    simp

/-- Characters of a stripped string come from the original string. -/
theorem pyStrip_part (s : Str) : pyStrip s <:+: s := by
  have h1 : pyStrip s <+: s.dropWhile isPySpace := rtrim_prefix (s.dropWhile isPySpace)
  have h2 : s.dropWhile isPySpace <:+ s := List.dropWhile_suffix isPySpace
  exact h1.isInfix.trans h2.isInfix

/-- Stripping preserves separator-pair freeness. -/
theorem hasPair_pyStrip_false (x y : Char) (s : Str) (h : hasPair x y s = false) :
    hasPair x y (pyStrip s) = false := by
  by_contra hc
  rw [Bool.not_eq_false] at hc
  rw [hasPair_mono x y (pyStrip s) s (pyStrip_part s) hc] at h
  cases h

/-- Newline-freeness passes to the stripped string. -/
theorem not_mem_pyStrip (c : Char) (s : Str) (h : c ∉ s) : c ∉ pyStrip s :=
  fun hmem => h ((pyStrip_part s).sublist.subset hmem)

/-- Left-trimming an appended final dot trims only the left part. -/
theorem dropWhile_ws_append_dot (p : Str) :
    (p ++ ['.']).dropWhile isPySpace = p.dropWhile isPySpace ++ ['.'] := by
  rw [List.dropWhile_append]
  split
  · rename_i hemp
    rw [List.isEmpty_iff] at hemp
    rw [hemp]
    rfl
  · rfl

/-- Stripping a string with an appended dot keeps the dot and right-trims
nothing. -/
theorem pyStrip_append_dot (p : Str) :
    pyStrip (p ++ ['.']) = p.dropWhile isPySpace ++ ['.'] := by
  unfold pyStrip
  rw [dropWhile_ws_append_dot, List.reverse_append]
  rw [show (['.'] : Str).reverse = ['.'] from rfl]
  rw [show (['.'] : Str) ++ (p.dropWhile isPySpace).reverse =
    '.' :: (p.dropWhile isPySpace).reverse from rfl]
  rw [dropWhile_cons_false isPySpace '.' _ (by decide)]
  rw [List.reverse_cons, List.reverse_reverse]

/-- Dropping trailing dots ignores one appended dot. -/
theorem dropTrailingDots_append_dot (z : Str) :
    ((z ++ ['.']).reverse.dropWhile (· = '.')).reverse =
      (z.reverse.dropWhile (· = '.')).reverse := by
  rw [List.reverse_append]
  rw [show (['.'] : Str).reverse ++ z.reverse = '.' :: z.reverse from rfl]
  rw [List.dropWhile_cons, if_pos (by simp)]

/-- A string ending in a non-whitespace character is untouched by
right-trimming. -/
theorem rtrim_eq_self (z : Str) (c : Char) (hlast : z.getLast? = some c)
    (hws : isPySpace c = false) : (z.reverse.dropWhile isPySpace).reverse = z := by
  cases hrev : z.reverse with
  | nil =>
    have : z = [] := by simpa using congrArg List.reverse hrev
    rw [this] at hlast
    simp at hlast
  | cons a t =>
    have ha : a = c := by
      have := List.head?_reverse z
      rw [hrev] at this
      simp only [List.head?_cons] at this
      rw [hlast] at this
      exact (Option.some.injEq .. ▸ this).symm ▸ rfl
    rw [dropWhile_cons_false isPySpace a t (ha ▸ hws), ← hrev, List.reverse_reverse]

/-- A blank unit cleans to the empty unit. -/
theorem cleanUnit_of_strip_nil (r : Str) (h : pyStrip r = []) : cleanUnit r = [] := by
  unfold cleanUnit
  rw [h]
  rfl

/-- Cleaning is invariant under a prior strip. -/
theorem cleanUnit_pyStrip (u : Str) : cleanUnit (pyStrip u) = cleanUnit u := by
  unfold cleanUnit
  rw [pyStrip_idem]

/-- Appending a final `'.'` to a string that is empty or ends in a
non-whitespace character does not change its cleaned unit. -/
theorem cleanUnit_append_dot (p : Str)
    (hp : p = [] ∨ ∃ c, p.getLast? = some c ∧ isPySpace c = false) :
    cleanUnit (p ++ ['.']) = cleanUnit p := by
  rcases hp with rfl | ⟨c, hc, hcw⟩
  · decide
  · unfold cleanUnit
    rw [pyStrip_append_dot p, dropTrailingDots_append_dot (p.dropWhile isPySpace)]
    have hne : p.dropWhile isPySpace ≠ [] := by
      intro hnil
      rw [List.dropWhile_eq_nil_iff] at hnil
      rw [hnil c (List.mem_of_mem_getLast? hc)] at hcw
      cases hcw
    have hlast : (p.dropWhile isPySpace).getLast? = some c := by
      rw [← getLast?_of_suffix (p.dropWhile isPySpace) p (List.dropWhile_suffix isPySpace) hne]
      exact hc
    rw [show pyStrip p = p.dropWhile isPySpace from
      rtrim_eq_self (p.dropWhile isPySpace) c hlast hcw]

/-- Every piece of a split is an infix of the split string. -/
theorem split_pieces_part (x y : Char) (s : Str) : ∀ p ∈ pySplit2 x y s, p <:+: s := by
  induction s using pySplit2.induct x y with
  | case1 =>
    intro p hp
    simp only [pySplit2, List.mem_singleton] at hp
    subst hp
    exact List.infix_rfl
  | case2 c =>
    intro p hp
    simp only [pySplit2, List.mem_singleton] at hp
    subst hp
    exact List.infix_rfl
  | case3 a b t h ih =>
    intro p hp
    simp only [pySplit2, if_pos h, List.mem_cons] at hp
    rcases hp with rfl | hp
    · exact List.nil_infix
    · exact (ih p hp).trans (List.suffix_cons b t).isInfix |>.trans
        (List.suffix_cons a (b :: t)).isInfix
  | case4 a b t h ih =>
    intro p hp
    simp only [pySplit2, if_neg h] at hp
    cases hps : pySplit2 x y (b :: t) with
    | nil => exact absurd hps (pySplit2_ne_nil x y _)
    | cons p₀ ps₀ =>
      rw [hps] at hp
      simp only [consHead, List.mem_cons] at hp
      rcases hp with rfl | hp
      · obtain ⟨r, hr⟩ := first_piece_prefix x y (b :: t) p₀ ps₀ hps
        exact List.IsPrefix.isInfix ⟨r, by rw [List.cons_append, ← hr]⟩
      · have : p ∈ pySplit2 x y (b :: t) := by rw [hps]; exact List.mem_cons_of_mem _ hp
        exact (ih p this).trans (List.suffix_cons a (b :: t)).isInfix

/-- A separator-free unit's `dotCanon` is its cleaned unit (or nothing, if
blank). -/
theorem dotCanon_noPair (u : Str) (h : hasPair '.' ' ' u = false) :
    dotCanon u = [cleanUnit u].filter (· ≠ []) := by
  unfold dotCanon
  rw [pySplit2_eq_single '.' ' ' u h]
  rfl

/-- `dotCanon` distributes over an inserted `". "` separator. -/
theorem dotCanon_append_sep (a b : Str) :
    dotCanon (a ++ '.' :: ' ' :: b) = dotCanon a ++ dotCanon b := by
  unfold dotCanon
  rw [pySplit2_append_sep '.' ' ' (by decide) b a, List.map_append, List.filter_append]

/-- `appendDotLast` skips over a leading piece of a longer list. -/
theorem appendDotLast_cons (p : Str) (l : List Str) (h : l ≠ []) :
    appendDotLast (p :: l) = p :: appendDotLast l := by
  cases l with
  | nil => exact absurd rfl h
  | cons q ps => rfl

/-- `consHead` and `appendDotLast` commute. -/
theorem consHead_appendDotLast (c : Char) (l : List Str) :
    consHead c (appendDotLast l) = appendDotLast (consHead c l) := by
  match l with
  | [] => rfl
  | [p] => rfl
  | p :: q :: ps => rfl

/-- `appendDotLast` on an explicit last piece. -/
theorem appendDotLast_snoc (l : List Str) (p : Str) :
    appendDotLast (l ++ [p]) = l ++ [p ++ ['.']] := by
  induction l with
  | nil => rfl
  | cons a t ih =>
    rw [List.cons_append, appendDotLast_cons a (t ++ [p]) (by simp), ih, List.cons_append]

/-- Splitting after appending a final `'.'`: the dot joins the last
piece. -/
theorem splitD_append_dot (s : Str) :
    pySplit2 '.' ' ' (s ++ ['.']) = appendDotLast (pySplit2 '.' ' ' s) := by
  induction s using pySplit2.induct '.' ' ' with
  | case1 => rfl
  | case2 c =>
    show pySplit2 '.' ' ' (c :: ['.']) = _
    have hcond : ¬(c = '.' ∧ '.' = ' ') := fun hh => absurd hh.2 (by decide)
    simp only [pySplit2, if_neg hcond]
    rfl
  | case3 a b t h ih =>
    show pySplit2 '.' ' ' (a :: b :: (t ++ ['.'])) = _
    rw [pySplit2, if_pos h, ih, pySplit2, if_pos h,
      appendDotLast_cons [] _ (pySplit2_ne_nil '.' ' ' t)]
  | case4 a b t h ih =>
    show pySplit2 '.' ' ' (a :: b :: (t ++ ['.'])) = _
    rw [pySplit2, if_neg h, show b :: (t ++ ['.']) = (b :: t) ++ ['.'] from rfl, ih,
      consHead_appendDotLast]
    conv_rhs => rw [pySplit2, if_neg h]

/-- The last piece of a split inherits the string's non-space last
character. -/
theorem splitD_last_decomp (s : Str) (c : Char) (hlast : s.getLast? = some c)
    (hws : isPySpace c = false) :
    ∃ l p, pySplit2 '.' ' ' s = l ++ [p] ∧ p.getLast? = some c := by
  induction s using pySplit2.induct '.' ' ' with
  | case1 => simp at hlast
  | case2 c' =>
    simp only [List.getLast?_singleton, Option.some.injEq] at hlast
    exact ⟨[], [c'], rfl, by simp [hlast]⟩
  | case3 a b t h ih =>
    obtain ⟨rfl, rfl⟩ := h
    cases t with
    | nil =>
      simp only [List.getLast?_cons_cons, List.getLast?_singleton, Option.some.injEq] at hlast
      rw [← hlast] at hws
      simp [isPySpace] at hws
    | cons d t' =>
      rw [List.getLast?_cons_cons, List.getLast?_cons_cons] at hlast
      obtain ⟨l, p, hsplit, hp⟩ := ih hlast
      refine ⟨[] :: l, p, ?_, hp⟩
      rw [pySplit2, if_pos ⟨rfl, rfl⟩, hsplit, List.cons_append]
  | case4 a b t h ih =>
    rw [List.getLast?_cons_cons] at hlast
    obtain ⟨l, p, hsplit, hp⟩ := ih hlast
    have hpne : p ≠ [] := fun hnil => by rw [hnil] at hp; simp at hp
    cases l with
    | nil =>
      refine ⟨[], a :: p, ?_, ?_⟩
      · rw [pySplit2, if_neg h, hsplit]
        rfl
      · cases p with
        | nil => exact absurd rfl hpne
        | cons p0 p' => rw [List.getLast?_cons_cons]; exact hp
    | cons q l' =>
      refine ⟨(a :: q) :: l', p, ?_, hp⟩
      rw [pySplit2, if_neg h, hsplit]
      rfl

/-- Appending a final `'.'` to a string that is empty or ends in a
non-whitespace character does not change its `dotCanon`. -/
theorem dotCanon_append_dot (s : Str)
    (hp : s = [] ∨ ∃ c, s.getLast? = some c ∧ isPySpace c = false) :
    dotCanon (s ++ ['.']) = dotCanon s := by
  rcases hp with rfl | ⟨c, hc, hcw⟩
  · decide
  · obtain ⟨l, p, hsplit, hplast⟩ := splitD_last_decomp s c hc hcw
    unfold dotCanon
    rw [splitD_append_dot, hsplit, appendDotLast_snoc, List.map_append, List.map_append,
      List.filter_append, List.filter_append, List.map_singleton, List.map_singleton,
      cleanUnit_append_dot p (Or.inr ⟨c, hplast, hcw⟩)]

/-- A character absent from the separator and all pieces is absent from
their join. -/
theorem not_mem_pyJoin (c : Char) (sep : Str) (hsep : c ∉ sep) :
    ∀ (l : List Str), (∀ u ∈ l, c ∉ u) → c ∉ pyJoin sep l
  | [], _ => by simp [pyJoin, List.intercalate]
  | [u], h => by
    rw [pyJoin_single]
    exact h u (List.mem_singleton.mpr rfl)
  | u :: v :: t, h => by
    rw [pyJoin_cons]
    intro hmem
    rcases List.mem_append.mp hmem with hmem | hmem
    · rcases List.mem_append.mp hmem with hmem | hmem
      · exact h u (List.mem_cons_self _ _) hmem
      · exact hsep hmem
    · exact not_mem_pyJoin c sep hsep (v :: t)
        (fun w hw => h w (List.mem_cons_of_mem u hw)) hmem

/-- Appending a trimmed nonempty sentence buffer with `'. '` and a final
dot carries exactly the buffer's units. -/
theorem dotCanon_join_dot :
    ∀ (l : List Str), (∀ u ∈ l, pyStrip u = u ∧ u ≠ []) → l ≠ [] →
      dotCanon (pyJoin dotSp l ++ ['.']) = l.flatMap dotCanon
  | [], _, hne => absurd rfl hne
  | [u], h, _ => by
    obtain ⟨hu, hune⟩ := h u (List.mem_singleton.mpr rfl)
    rw [pyJoin_single]
    have hlast : ∃ c, u.getLast? = some c ∧ isPySpace c = false := by
      have := pyStrip_getLast_not_ws u (by rw [hu]; exact hune)
      rwa [hu] at this
    rw [dotCanon_append_dot u (Or.inr hlast)]
    simp
  | u :: v :: t, h, _ => by
    rw [pyJoin_cons]
    have hstep : u ++ dotSp ++ pyJoin dotSp (v :: t) ++ ['.'] =
        u ++ '.' :: ' ' :: (pyJoin dotSp (v :: t) ++ ['.']) := by
      simp [dotSp]
    rw [hstep, dotCanon_append_sep,
      dotCanon_join_dot (v :: t) (fun w hw => h w (List.mem_cons_of_mem u hw))
        (List.cons_ne_nil v t)]
    simp

/-- The canonical units of a newline-free string are its `dotCanon`. -/
theorem canonUnits_of_nlFree (s : Str) (h : '\n' ∉ s) : canonUnits s = dotCanon s := by
  unfold canonUnits
  rw [pySplit2_eq_single '\n' '\n' s (hasPair_eq_false_of_not_mem '\n' '\n' s h)]
  simp

/-- The canonical units of a `"\n\n"`-join of newline-free pieces are the
pieces' units in order. -/
theorem canonUnits_joinN (l : List Str) (h : ∀ u ∈ l, '\n' ∉ u) (hne : l ≠ []) :
    canonUnits (pyJoin nl2 l) = l.flatMap dotCanon := by
  unfold canonUnits
  rw [splitN_join l h hne]

/-- Filtering a map is the flat map of filtered singletons. -/
theorem mapFilter_flatMap (l : List Str) :
    ((l.map cleanUnit).filter (· ≠ [])) =
      l.flatMap (fun r => [cleanUnit r].filter (· ≠ [])) := by
  induction l with
  | nil => rfl
  | cons a t ih =>
    rw [List.map_cons, List.flatMap_cons, ← ih, List.filter_cons, List.filter_cons]
    by_cases h : decide (cleanUnit a ≠ []) = true
    · rw [if_pos h, if_pos h, List.filter_nil, List.cons_append, List.nil_append]
    · rw [if_neg h, if_neg h, List.filter_nil, List.nil_append]

/-- `dotCanon` as a flat map over raw pieces. -/
theorem dotCanon_eq_flatMap_pieces (p : Str) :
    dotCanon p = (pySplit2 '.' ' ' p).flatMap (fun r => [cleanUnit r].filter (· ≠ [])) := by
  unfold dotCanon
  exact mapFilter_flatMap _

/-- Flushing the paragraph buffer moves its units into the chunk side of
`canonState` unchanged. -/
theorem flushPara_canon (st : ChunkState) (hcur : ∀ u ∈ st.cur, '\n' ∉ u) :
    canonState (flushPara st) = canonState st := by
  unfold flushPara
  split
  · rfl
  · rename_i hne
    unfold canonState
    simp only [List.flatMap_append, List.flatMap_cons, List.flatMap_nil, List.append_nil]
    rw [canonUnits_joinN st.cur hcur hne]

/-- One sentence-loop step appends exactly the raw piece's cleaned unit to
`canonState` and keeps the buffer a sentence buffer. -/
theorem senStep_canon (tc : Str → Nat) (budget : Nat) (st : ChunkState) (r : Str)
    (hr : hasPair '.' ' ' r = false) (hrn : '\n' ∉ r)
    (hcur : ∀ u ∈ st.cur, SentUnit u) :
    canonState (senStep tc budget st r) = canonState st ++ [cleanUnit r].filter (· ≠ []) ∧
      ∀ u ∈ (senStep tc budget st r).cur, SentUnit u := by
  have hcur' : ∀ u ∈ st.cur, pyStrip u = u ∧ u ≠ [] ∧ '\n' ∉ u ∧ hasPair '.' ' ' u = false :=
    fun u hu => hcur u hu
  simp only [senStep]
  by_cases h0 : pyStrip r = []
  · rw [if_pos h0]
    exact ⟨by rw [cleanUnit_of_strip_nil r h0]; simp, hcur⟩
  · rw [if_neg h0]
    have hsent : SentUnit (pyStrip r) :=
      ⟨pyStrip_idem r, h0, not_mem_pyStrip '\n' r hrn, hasPair_pyStrip_false '.' ' ' r hr⟩
    have hdc : dotCanon (pyStrip r) = [cleanUnit r].filter (· ≠ []) := by
      rw [dotCanon_noPair (pyStrip r) hsent.2.2.2, cleanUnit_pyStrip]
    by_cases h1 : budget < st.curTok + tc (pyStrip r)
    · rw [if_pos h1]
      by_cases h2 : st.cur = []
      · rw [if_pos h2]
        constructor
        · unfold canonState
          simp only [h2, List.nil_append, List.flatMap_cons, List.flatMap_nil,
            List.append_nil, hdc]
        · intro u hu
          simp only [h2, List.nil_append, List.mem_singleton] at hu
          subst hu
          exact hsent
      · rw [if_neg h2]
        have hjoin : canonUnits (pyJoin dotSp st.cur ++ ['.']) = st.cur.flatMap dotCanon := by
          have hnl : '\n' ∉ pyJoin dotSp st.cur ++ ['.'] := by
            intro hmem
            rcases List.mem_append.mp hmem with hmem | hmem
            · exact not_mem_pyJoin '\n' dotSp (by decide) st.cur
                (fun u hu => (hcur' u hu).2.2.1) hmem
            · simp at hmem
          rw [canonUnits_of_nlFree _ hnl,
            dotCanon_join_dot st.cur (fun u hu => ⟨(hcur' u hu).1, (hcur' u hu).2.1⟩) h2]
        constructor
        · unfold canonState
          simp only [List.flatMap_append, List.flatMap_cons, List.flatMap_nil,
            List.append_nil, List.nil_append, hjoin, hdc, List.append_assoc]
        · intro u hu
          simp only [List.nil_append, List.mem_singleton] at hu
          subst hu
          exact hsent
    · rw [if_neg h1]
      constructor
      · unfold canonState
        simp only [List.flatMap_append, List.flatMap_cons, List.flatMap_nil,
          List.append_nil, hdc, List.append_assoc]
      · intro u hu
        rcases List.mem_append.mp hu with hu | hu
        · exact hcur u hu
        · rw [List.mem_singleton] at hu
          subst hu
          exact hsent

/-- The sentence fold appends exactly the pieces' cleaned units to
`canonState`. -/
theorem foldl_senStep_canon (tc : Str → Nat) (budget : Nat) :
    ∀ (rs : List Str) (st : ChunkState),
      (∀ r ∈ rs, hasPair '.' ' ' r = false ∧ '\n' ∉ r) →
      (∀ u ∈ st.cur, SentUnit u) →
      canonState (rs.foldl (senStep tc budget) st) =
          canonState st ++ rs.flatMap (fun r => [cleanUnit r].filter (· ≠ [])) ∧
        ∀ u ∈ (rs.foldl (senStep tc budget) st).cur, SentUnit u
  | [], st, _, hcur => ⟨by simp, hcur⟩
  | r :: rs, st, hrs, hcur => by
    obtain ⟨heq, hcur1⟩ := senStep_canon tc budget st r
      (hrs r (List.mem_cons_self r rs)).1 (hrs r (List.mem_cons_self r rs)).2 hcur
    obtain ⟨heq2, hcur2⟩ := foldl_senStep_canon tc budget rs (senStep tc budget st r)
      (fun r' hr' => hrs r' (List.mem_cons_of_mem r hr')) hcur1
    refine ⟨?_, hcur2⟩
    rw [List.foldl_cons, heq2, heq, List.flatMap_cons, List.append_assoc]

/-- A state with one unit appended to the buffer carries that unit's
`dotCanon` at the end. -/
theorem canonState_append_unit (A : ChunkState) (u : Str) (k : Nat) :
    canonState ⟨A.chunks, A.cur ++ [u], k⟩ = canonState A ++ dotCanon u := by
  unfold canonState
  simp [List.flatMap_append, List.append_assoc]

/-- One paragraph-loop step appends exactly the paragraph's units to
`canonState` and keeps the buffer newline-free. -/
theorem paraStep_canon (tc : Str → Nat) (budget : Nat) (st : ChunkState) (para : Str)
    (hp : '\n' ∉ para) (hcur : ∀ u ∈ st.cur, '\n' ∉ u) :
    canonState (paraStep tc budget st para) = canonState st ++ dotCanon para ∧
      ∀ u ∈ (paraStep tc budget st para).cur, '\n' ∉ u := by
  simp only [paraStep]
  by_cases h1 : budget < tc para
  · rw [if_pos h1]
    have hflush := flushPara_canon st hcur
    have hcur0 : (flushPara st).cur = [] := flushPara_cur st
    have hsent : ∀ u ∈ (flushPara st).cur, SentUnit u := by rw [hcur0]; simp
    have hpieces : ∀ r ∈ pySplit2 '.' ' ' para, hasPair '.' ' ' r = false ∧ '\n' ∉ r := by
      intro r hrp
      refine ⟨split_pieces_noPair '.' ' ' para r hrp, ?_⟩
      intro hmem
      exact hp ((split_pieces_part '.' ' ' para r hrp).sublist.subset hmem)
    obtain ⟨heq, hcur2⟩ :=
      foldl_senStep_canon tc budget (pySplit2 '.' ' ' para) (flushPara st) hpieces hsent
    constructor
    · rw [heq, hflush, ← dotCanon_eq_flatMap_pieces]
    · intro u hu
      exact (hcur2 u hu).2.2.1
  · rw [if_neg h1]
    by_cases h2 : budget < st.curTok + tc para
    · rw [if_pos h2]
      constructor
      · rw [canonState_append_unit (flushPara st) para, flushPara_canon st hcur]
      · intro u hu
        rcases List.mem_append.mp hu with hu | hu
        · rw [flushPara_cur st] at hu
          simp at hu
        · rw [List.mem_singleton] at hu
          subst hu
          exact hp
    · rw [if_neg h2]
      constructor
      · exact canonState_append_unit st para _
      · intro u hu
        rcases List.mem_append.mp hu with hu | hu
        · exact hcur u hu
        · rw [List.mem_singleton] at hu
          subst hu
          exact hp

/-- The paragraph fold appends exactly the paragraphs' units to
`canonState`. -/
theorem foldl_paraStep_canon (tc : Str → Nat) (budget : Nat) :
    ∀ (ps : List Str) (st : ChunkState),
      (∀ p ∈ ps, '\n' ∉ p) → (∀ u ∈ st.cur, '\n' ∉ u) →
      canonState (ps.foldl (paraStep tc budget) st) =
          canonState st ++ ps.flatMap dotCanon ∧
        ∀ u ∈ (ps.foldl (paraStep tc budget) st).cur, '\n' ∉ u
  | [], st, _, hcur => ⟨by simp, hcur⟩
  | p :: ps, st, hps, hcur => by
    obtain ⟨heq, hcur1⟩ := paraStep_canon tc budget st p (hps p (List.mem_cons_self p ps)) hcur
    obtain ⟨heq2, hcur2⟩ := foldl_paraStep_canon tc budget ps (paraStep tc budget st p)
      (fun p' hp' => hps p' (List.mem_cons_of_mem p hp')) hcur1
    refine ⟨?_, hcur2⟩
    rw [List.foldl_cons, heq2, heq, List.flatMap_cons, List.append_assoc]

/-- The trailing flush releases exactly the canonical units of the
state. -/
theorem finalFlush_canon (st : ChunkState) (hcur : ∀ u ∈ st.cur, '\n' ∉ u) :
    (finalFlush st).flatMap (fun f => canonUnits f.text) = canonState st := by
  unfold finalFlush canonState
  split
  · rename_i h
    rw [h]
    simp
  · rename_i hne
    rw [if_neg ?hnl]
    case hnl =>
      cases hcc : st.cur with
      | nil => exact absurd hcc hne
      | cons c0 rest =>
        rw [List.headI_cons]
        exact hcur c0 (hcc ▸ List.mem_cons_self c0 rest)
    rw [List.flatMap_append]
    simp only [List.flatMap_cons, List.flatMap_nil, List.append_nil]
    rw [canonUnits_joinN st.cur hcur hne]

/-- The multi-chunk path of `chunk_text` carries exactly the text's
canonical units, provided every paragraph of the text is newline-free. -/
theorem chunkFlushesLong_canon (tc : Str → Nat) (budget : Nat) (text : Str)
    (h : ∀ p ∈ pySplit2 '\n' '\n' text, '\n' ∉ p) :
    (chunkFlushesLong tc budget text).flatMap (fun f => canonUnits f.text) =
      canonUnits text := by
  unfold chunkFlushesLong
  obtain ⟨heq, hcur⟩ := foldl_paraStep_canon tc budget (pySplit2 '\n' '\n' text)
    ⟨[], [], 0⟩ h (by simp)
  rw [finalFlush_canon _ hcur, heq]
  unfold canonState canonUnits
  simp

/-- The completed chunks of `chunk_text` carry exactly the text's
canonical units, provided every paragraph of the text is newline-free. -/
theorem chunkFlushes_canon (tc : Str → Nat) (budget : Nat) (text : Str)
    (h : ∀ p ∈ pySplit2 '\n' '\n' text, '\n' ∉ p) :
    (chunkFlushes tc budget text).flatMap (fun f => canonUnits f.text) = canonUnits text := by
  unfold chunkFlushes
  split
  · simp
  · exact chunkFlushesLong_canon tc budget text h

/-- The chunk objects of `chunk_text` carry the same units as the flushed
chunk texts: stamping indices and re-tokenizing changes no text. -/
theorem chunkText_units (tc : Str → Nat) (budget : Nat) (text : Str) :
    (chunk_text tc budget text).flatMap (fun c => canonUnits c.text) =
      (chunkFlushes tc budget text).flatMap (fun f => canonUnits f.text) := by
  unfold chunk_text
  rw [List.flatMap_map]
  have h1 : ((chunkFlushes tc budget text).map Flushed.text).enum.flatMap
      (fun it => canonUnits it.2) =
      (((chunkFlushes tc budget text).map Flushed.text).enum.map Prod.snd).flatMap
        canonUnits := by
    rw [List.flatMap_map]
  rw [show (fun it : Nat × Str =>
      canonUnits (DocumentChunk.mk it.2 (tc it.2) it.1
        ((chunkFlushes tc budget text).map Flushed.text).length).text) =
      (fun it : Nat × Str => canonUnits it.2) from rfl, h1, List.enum_map_snd,
    List.flatMap_map]

/-- Claim C2: for every tokenizer, budget and paragraph-joined text (every
paragraph free of raw newlines, as produced by the upstream extractor),
the chunks of `chunk_text`, read in index order, carry exactly the same
sequence of non-blank sentence units as the source text, in the same
order — units compared up to the separator policy (whitespace and
re-inserted trailing periods erased). -/
theorem C2_segmentation_completeness (tc : Str → Nat) (budget : Nat) (text : Str)
    (h : ∀ p ∈ pySplit2 '\n' '\n' text, '\n' ∉ p) :
    (chunk_text tc budget text).flatMap (fun c => canonUnits c.text) = canonUnits text := by
  rw [chunkText_units, chunkFlushes_canon tc budget text h]

/-- Witness for claim C2 on a concrete document: an over-budget paragraph
split into sentences plus a following short paragraph, chunked with the
character-count tokenizer and budget 5, reconstructs the same unit
sequence. -/
theorem C2_witness :
    (chunk_text List.length 5 "aaaa. bbb\n\ncc".data).flatMap (fun c => canonUnits c.text) =
      canonUnits "aaaa. bbb\n\ncc".data :=
  C2_segmentation_completeness List.length 5 "aaaa. bbb\n\ncc".data (by decide)
